import Mathlib

/-!
Verification development for the `ldpc` crate: linear codes, CSS codes,
the symplectic pairing algorithm for logical operators, and the flip,
belief-propagation, CSS-composite and erasure decoders.

Binary vectors over GF(2) are embedded as their support sets
(`Finset ℕ`), mirroring the sparse position-list representation of the
`sparse_bin_mat` crate: vector addition is symmetric difference and the
GF(2) dot product is the parity of the intersection cardinality.
-/

open symmDiff

namespace Ldpc

/-- Support of a GF(2) vector: the set of positions holding a one. -/
abbrev BVec := Finset ℕ

/-- GF(2) dot product of two vectors represented by their supports:
the parity of the size of the intersection.  Mirrors
`SparseBinVec::dot_with`. -/
def dotF (a b : BVec) : ZMod 2 := ((a ∩ b).card : ZMod 2)

/-- A sparse binary matrix: a number of columns together with the list
of row supports.  Mirrors `SparseBinMat`. -/
structure BinMat where
  cols : ℕ
  rows : List BVec

instance : DecidableEq BinMat := fun a b =>
  decidable_of_iff (a.cols = b.cols ∧ a.rows = b.rows)
    (by cases a; cases b; simp)

/-- Transpose of a sparse binary matrix: row `b` of the transpose is the
set of original row indices whose support contains `b`.  Mirrors
`SparseBinMat::transposed`. -/
def BinMat.transposed (m : BinMat) : BinMat :=
  ⟨m.rows.length,
   (List.range m.cols).map
     (fun b => (Finset.range m.rows.length).filter (fun c => b ∈ m.rows.getD c ∅))⟩

/-- A sparse binary vector with an explicit length.  Mirrors
`SparseBinVec`. -/
structure BinVec where
  len : ℕ
  support : Finset ℕ

instance : DecidableEq BinVec := fun a b =>
  decidable_of_iff (a.len = b.len ∧ a.support = b.support)
    (by cases a; cases b; simp)

instance (priority := 2000) : DecidableEq (Option BinVec) := fun a b =>
  match a, b with
  | none, none => isTrue rfl
  | none, some _ => isFalse (by simp)
  | some _, none => isFalse (by simp)
  | some x, some y => decidable_of_iff (x = y) (by simp)

/-- Matrix-vector product over GF(2): the support of the result is the
set of rows with odd overlap with the vector.  Mirrors
`&SparseBinMat * &SparseBinVec`. -/
def BinMat.mulVec (m : BinMat) (v : BVec) : BinVec :=
  ⟨m.rows.length,
   (Finset.range m.rows.length).filter (fun c => dotF (m.rows.getD c ∅) v = 1)⟩

/-- `(A * Bᵗ).is_zero()`: every row of `A` is orthogonal to every row of
`B` over GF(2). -/
def BinMat.mulTransposedIsZero (a b : BinMat) : Bool :=
  a.rows.all (fun r => b.rows.all (fun s => decide (dotF r s = 0)))

/-- All subsets of `{0, ..., n-1}` as a list of supports. -/
def allSubsets (n : ℕ) : List BVec :=
  (List.range n).foldr (fun i acc => acc ++ acc.map (insert i)) [∅]

/-- Modelled from the spec: the GF(2) `nullspace` primitive of the
external `sparse_bin_mat` library ("compute the missing matrix as the
GF(2) null space of the given one").  The null space of a matrix with
`cols` columns is returned as the list of all vectors supported on the
column range that are orthogonal to every row. -/
def nullspaceModel (m : BinMat) : BinMat :=
  ⟨m.cols,
   (allSubsets m.cols).filter
     (fun v => m.rows.all (fun r => decide (dotF r v = 0)))⟩

/-- A linear code: a parity-check matrix, a generator matrix and the
bit-to-check adjacency matrix.  Mirrors `LinearCode`. -/
structure LinearCode where
  parityCheckMatrix : BinMat
  generatorMatrix : BinMat
  bitAdjacencies : BinMat
deriving DecidableEq

/-- Mirrors `LinearCode::from_parity_check_matrix`: the generator matrix
is the null space of the parity-check matrix and the bit adjacency is
its transpose. -/
def LinearCode.fromParityCheckMatrix (m : BinMat) : LinearCode :=
  ⟨m, nullspaceModel m, m.transposed⟩

/-- Mirrors `LinearCode::from_generator_matrix`. -/
def LinearCode.fromGeneratorMatrix (m : BinMat) : LinearCode :=
  ⟨nullspaceModel m, m, (nullspaceModel m).transposed⟩

/-- Mirrors `LinearCode::repetition_code`. -/
def LinearCode.repetitionCode (blockSize : ℕ) : LinearCode :=
  LinearCode.fromGeneratorMatrix ⟨blockSize, [Finset.range blockSize]⟩

/-- Mirrors `LinearCode::hamming_code`. -/
def LinearCode.hammingCode : LinearCode :=
  LinearCode.fromParityCheckMatrix ⟨7, [{3, 4, 5, 6}, {1, 2, 5, 6}, {0, 2, 4, 6}]⟩

/-- Mirrors `LinearCode::empty`: a code of length 0 without checks. -/
def LinearCode.emptyCode : LinearCode :=
  LinearCode.fromParityCheckMatrix ⟨0, []⟩

/-- Number of columns of the parity-check matrix (`len` /
`block_size`). -/
def LinearCode.len (c : LinearCode) : ℕ := c.parityCheckMatrix.cols

/-- `LinearCode::syndrome_of`: the parity-check matrix applied to a
message. -/
def LinearCode.syndromeOf (c : LinearCode) (v : BVec) : BinVec :=
  c.parityCheckMatrix.mulVec v

/-- The `H · Gᵗ = 0` duality invariant of a linear code. -/
def LinearCode.dualityInvariant (c : LinearCode) : Prop :=
  ∀ r ∈ c.parityCheckMatrix.rows, ∀ g ∈ c.generatorMatrix.rows, dotF r g = 0

instance (c : LinearCode) : Decidable c.dualityInvariant :=
  inferInstanceAs (Decidable (∀ r ∈ c.parityCheckMatrix.rows,
    ∀ g ∈ c.generatorMatrix.rows, dotF r g = 0))

/-- The generic X/Z pair container.  Mirrors `Css<X, Z>`. -/
structure Css (X : Type _) (Z : Type _ := X) where
  x : X
  z : Z
deriving DecidableEq

/-- Mirrors `Css::map`: apply one function to both sides. -/
def Css.map {T S : Type _} (c : Css T T) (f : T → S) : Css S S :=
  ⟨f c.x, f c.z⟩

/-- Mirrors `Css::pair`: zip two containers componentwise. -/
def Css.pair {X Z XX ZZ : Type _} (c : Css X Z) (other : Css XX ZZ) :
    Css (X × XX) (Z × ZZ) :=
  ⟨(c.x, other.x), (c.z, other.z)⟩

/-- Mirrors `Css::swap_xz`. -/
def Css.swapXZ {X Z : Type _} (c : Css X Z) : Css Z X := ⟨c.z, c.x⟩

/-- The working state of the symplectic pairing algorithm.  Mirrors the
`Logicals` struct of `codes/css/logicals.rs`. -/
structure LogState where
  rawXGenerators : List BVec
  rawZGenerators : List BVec
  xLogicals : List BVec
  zLogicals : List BVec
deriving DecidableEq

/-- Mirrors `Logicals::anticommute`: the GF(2) dot product is one. -/
def antic (x z : BVec) : Bool := decide (dotF x z = 1)

/-- Mirrors `.iter().position(...)` in
`find_anticommuting_z_generator`: index of the first anticommuting
generator. -/
def findAntiPos (x : BVec) : List BVec → Option ℕ
  | [] => none
  | z :: zs => if antic x z then some 0 else (findAntiPos x zs).map (· + 1)

/-- Mirrors `Vec::swap_remove`: remove index `i` by moving the last
element into its place. -/
def swapRemove (l : List BVec) (i : ℕ) : List BVec :=
  match l.getLast? with
  | none => l.dropLast
  | some last => (l.set i last).dropLast

/-- One resolution of the `while let Some(x_generator) = ... pop()` loop
of `Logicals::compute`, driven by fuel equal to the initial pool size:
pop the last candidate X generator, search a partner, update the
remaining generators and emit the pair.  Mirrors `compute`,
`find_anticommuting_z_generator`, `update_remaining_generators` and
`push_logicals`. -/
def computeGo : ℕ → LogState → LogState
  | 0, s => s
  | fuel + 1, s =>
    match s.rawXGenerators.getLast? with
    | none => s
    | some g =>
      let rx := s.rawXGenerators.dropLast
      match findAntiPos g s.rawZGenerators with
      | none => computeGo fuel ⟨rx, s.rawZGenerators, s.xLogicals, s.zLogicals⟩
      | some i =>
        let h := s.rawZGenerators.getD i ∅
        computeGo fuel
          ⟨rx.map (fun v => if antic v h then g ∆ v else v),
           (swapRemove s.rawZGenerators i).map (fun v => if antic g v then h ∆ v else v),
           s.xLogicals ++ [g],
           s.zLogicals ++ [h]⟩

/-- Mirrors `Logicals::compute`: run the pairing loop until the X pool
is exhausted (the pool shrinks by one per iteration, so its initial
size is exactly the number of iterations). -/
def computeLogicals (s : LogState) : LogState :=
  computeGo s.rawXGenerators.length s

/-- Mirrors `from_linear_codes`: seed the candidate X logicals with the
generators of the Z code and vice versa, run the pairing and collect
the emitted logicals into two matrices over the code length. -/
def fromLinearCodes (xCode zCode : LinearCode) : Css BinMat BinMat :=
  let final := computeLogicals
    ⟨zCode.generatorMatrix.rows, xCode.generatorMatrix.rows, [], []⟩
  ⟨⟨xCode.len, final.xLogicals⟩, ⟨xCode.len, final.zLogicals⟩⟩

/-- The loop invariant of the symplectic pairing algorithm: emitted
logicals pair up with a GF(2) identity matrix, both pools commute with
the logicals emitted from the opposite pool, and every vector in play
satisfies the subspace predicate of its side (`P` for X, `Q` for Z). -/
def PairInv (P Q : BVec → Prop) (s : LogState) : Prop :=
  s.xLogicals.length = s.zLogicals.length ∧
  (∀ i j (hi : i < s.xLogicals.length) (hj : j < s.zLogicals.length),
      dotF (s.xLogicals.get ⟨i, hi⟩) (s.zLogicals.get ⟨j, hj⟩)
        = if i = j then 1 else 0) ∧
  (∀ x ∈ s.rawXGenerators, ∀ z ∈ s.zLogicals, dotF x z = 0) ∧
  (∀ z ∈ s.rawZGenerators, ∀ x ∈ s.xLogicals, dotF x z = 0) ∧
  (∀ x ∈ s.rawXGenerators, P x) ∧ (∀ x ∈ s.xLogicals, P x) ∧
  (∀ z ∈ s.rawZGenerators, Q z) ∧ (∀ z ∈ s.zLogicals, Q z)

/-- Commutation with a fixed list of stabilizer rows, closed under
GF(2) addition. -/
def CommutesWithRows (m : BinMat) (v : BVec) : Prop :=
  ∀ r ∈ m.rows, dotF v r = 0

/-- X-side linear code of the counterexample pair: a length-2 code
with parity check `{0,1}` and generator `{0,1}`. -/
def cexXCode : LinearCode :=
  ⟨⟨2, [{0, 1}]⟩, ⟨2, [{0, 1}]⟩, BinMat.transposed ⟨2, [{0, 1}]⟩⟩

/-- Z-side linear code of the counterexample pair: the full length-2
space, with no parity checks and the standard basis as generators. -/
def cexZCode : LinearCode :=
  ⟨⟨2, []⟩, ⟨2, [{0}, {1}]⟩, BinMat.transposed ⟨2, []⟩⟩

/-- Mirrors `CssError`. -/
inductive CssError where
  | DifferentXandZLength : ℕ → ℕ → CssError
  | NonOrthogonalCodes : CssError
deriving DecidableEq

/-- Mirrors `CssCode`: a pair of stabilizer matrices and a pair of
logical matrices. -/
structure CssCode where
  stabilizers : Css BinMat BinMat
  logicals : Css BinMat BinMat
deriving DecidableEq

/-- Mirrors `CssCode::try_new`: report `DifferentXandZLength` when the
lengths differ, then `NonOrthogonalCodes` when the parity-check
matrices are not orthogonal, and only otherwise build the stabilizers
and derive the logicals. -/
def CssCode.tryNew (xCode zCode : LinearCode) : Except CssError CssCode :=
  if xCode.len ≠ zCode.len then
    .error (.DifferentXandZLength xCode.len zCode.len)
  else if ¬ (xCode.parityCheckMatrix.mulTransposedIsZero zCode.parityCheckMatrix
      = true) then
    .error .NonOrthogonalCodes
  else
    .ok ⟨⟨xCode.parityCheckMatrix, zCode.parityCheckMatrix⟩,
         fromLinearCodes xCode zCode⟩

/-- Mirrors `CssCode::shor_code`: the hard-coded Shor code. -/
def CssCode.shorCode : CssCode :=
  ⟨⟨⟨9, [{0, 1, 2, 3, 4, 5}, {3, 4, 5, 6, 7, 8}]⟩,
    ⟨9, [{0, 1}, {1, 2}, {3, 4}, {4, 5}, {6, 7}, {7, 8}]⟩⟩,
   ⟨⟨9, [{0, 1, 2}]⟩, ⟨9, [{0, 3, 6}]⟩⟩⟩

/-- Mirrors `CssCode::len`. -/
def CssCode.len (c : CssCode) : ℕ := c.stabilizers.x.cols

/-- Mirrors `CssCode::num_x_logicals`, which returns the number of rows
of the *Z* logical matrix. -/
def CssCode.numXLogicals (c : CssCode) : ℕ := c.logicals.z.rows.length

/-- Mirrors `CssCode::num_z_logicals`. -/
def CssCode.numZLogicals (c : CssCode) : ℕ := c.logicals.z.rows.length

/-- Mirrors `CssDecoder::correction_for`, with a classical syndrome
decoder modelled by its correction function: pair each decoder with the
syndrome of its own axis, apply, and swap the X and Z results. -/
def cssCorrectionFor {Syn Cor : Type _}
    (decoders : Css (Syn → Cor) (Syn → Cor)) (syndrome : Css Syn Syn) :
    Css Cor Cor :=
  ((decoders.pair syndrome).map (fun p => p.1 p.2)).swapXZ

/-- GF(2) sum of two sparse vectors (`&SparseBinVec + &SparseBinVec`):
symmetric difference of the supports. -/
def BinVec.add (a b : BinVec) : BinVec := ⟨a.len, a.support ∆ b.support⟩

/-- Index of the first row satisfying a predicate.  Mirrors
`.rows().position(...)`. -/
def findRowPos (p : BVec → Bool) : List BVec → Option ℕ
  | [] => none
  | r :: rs => if p r then some 0 else (findRowPos p rs).map (· + 1)

/-- Mirrors `FlipDecoder::find_flippable`: the first bit (in
adjacency-matrix row order) whose number of unsatisfied adjacent
checks strictly exceeds half its degree. -/
def findFlippable (code : LinearCode) (syndrome : BinVec) : Option ℕ :=
  findRowPos
    (fun checks =>
      decide ((checks.filter (fun c => c ∈ syndrome.support)).card > checks.card / 2))
    code.bitAdjacencies.rows

/-- The `while let Some(bit) = self.find_flippable(&syndrome)` loop of
`FlipDecoder::decode`, driven by fuel (the source loop has no iteration
cap and is not known to terminate on all inputs; fuel exhaustion
models divergence as `none`).  Each flip adds the flipped bit's
syndrome contribution to the running syndrome and the bit itself to
the running output. -/
def flipGo (code : LinearCode) : ℕ → BinVec → BinVec → Option BinVec
  | 0, _, _ => none
  | fuel + 1, syndrome, output =>
    match findFlippable code syndrome with
    | none => some output
    | some bit =>
      flipGo code fuel (syndrome.add (code.syndromeOf {bit}))
        (output.add ⟨code.len, {bit}⟩)

/-- Mirrors `FlipDecoder::decode`: start from the syndrome of the
message and the message itself. -/
def flipDecode (code : LinearCode) (fuel : ℕ) (message : BinVec) : Option BinVec :=
  flipGo code fuel (code.syndromeOf message.support) ⟨message.len, message.support⟩

/-- The belief-propagation message state: the sparsity pattern of the
parity-check matrix seen from the bit side (`colSupports`, the checks
adjacent to each bit) and from the check side (`rowSupports`, the bits
adjacent to each check), together with the bit-to-check (`bits`) and
check-to-bit (`checks`) message values at the pattern positions.
Mirrors the `Messages` pair of `CsMat<f64>` (CSR `bits`, CSC `checks`),
with `f64` idealized as `ℝ`; entries outside the pattern are never
read. -/
structure BpMessages where
  colSupports : List BVec
  rowSupports : List BVec
  bits : ℕ → ℕ → ℝ
  checks : ℕ → ℕ → ℝ

/-- Mirrors `BpState`. -/
structure BpState where
  syndrome : BinVec
  likelyhoods : List ℝ
  messages : BpMessages
  numIterations : ℕ

/-- Mirrors `BpDecoder`. -/
structure BpDecoder where
  parityMat : BinMat
  transposedMat : BinMat
  likelyhoods : List ℝ
  numIterations : ℕ

/-- Mirrors `BpDecoder::new`: a uniform prior log-likelihood ratio
`ln((1-p)/p)` for every bit. -/
noncomputable def BpDecoder.new (parityMat : BinMat) (p : ℝ)
    (numIterations : ℕ) : BpDecoder :=
  ⟨parityMat, parityMat.transposed,
   List.replicate parityMat.cols (Real.log ((1 - p) / p)), numIterations⟩

/-- Mirrors `BpDecoder::initialize_from`: bit-to-check messages start
at the prior of their bit, check-to-bit messages start at zero, and
the iteration counter starts at zero. -/
noncomputable def BpDecoder.initializeFrom (dec : BpDecoder) (syndrome : BinVec) :
    BpState :=
  ⟨syndrome, dec.likelyhoods,
   ⟨dec.transposedMat.rows, dec.parityMat.rows,
    fun c b =>
      if c ∈ dec.transposedMat.rows.getD b ∅ then dec.likelyhoods.getD b 0 else 0,
    fun _ _ => 0⟩,
   0⟩

/-- `f64::atanh`, idealized over `ℝ`. -/
noncomputable def artanhR (x : ℝ) : ℝ := Real.log ((1 + x) / (1 - x)) / 2

/-- Mirrors `Messages::update_checks`: for each pattern position
`(check, bit)`, the new check-to-bit message is
`2·atanh(Π tanh(bit-to-check/2) over the check's other bits)`, with the
sign flipped when the syndrome holds the check. -/
noncomputable def BpMessages.updateChecks (m : BpMessages) (syndrome : BinVec) :
    BpMessages :=
  ⟨m.colSupports, m.rowSupports, m.bits,
   fun c b =>
     if c ∈ m.colSupports.getD b ∅ then
       (2 * artanhR
          ((∏ i ∈ m.rowSupports.getD c ∅, Real.tanh (m.bits c i / 2))
            / Real.tanh (m.bits c b / 2)))
         * (if c ∈ syndrome.support then -1 else 1)
     else m.checks c b⟩

/-- Mirrors `Messages::update_bits`: for each pattern position
`(check, bit)`, the new bit-to-check message is the sum of the other
incoming check-to-bit messages of the bit plus its prior. -/
noncomputable def BpMessages.updateBits (m : BpMessages) (likelyhoods : List ℝ) :
    BpMessages :=
  ⟨m.colSupports, m.rowSupports,
   fun c b =>
     if c ∈ m.colSupports.getD b ∅ then
       (∑ i ∈ m.colSupports.getD b ∅, m.checks i b) - m.checks c b
         + likelyhoods.getD b 0
     else m.bits c b,
   m.checks⟩

/-- Mirrors `BpState::update_once`: bump the iteration counter, update
the check messages from the syndrome, then the bit messages from the
priors. -/
noncomputable def BpState.updateOnce (s : BpState) : BpState :=
  ⟨s.syndrome, s.likelyhoods,
   (s.messages.updateChecks s.syndrome).updateBits s.likelyhoods,
   s.numIterations + 1⟩

open Classical in

/-- Mirrors `BpState::decode`: bit `b` is in the correction exactly
when its posterior (prior plus the sum of its incoming check-to-bit
messages) is strictly negative. -/
noncomputable def BpState.decode (s : BpState) : BinVec :=
  ⟨s.likelyhoods.length,
   (Finset.range s.likelyhoods.length).filter
     (fun b => s.likelyhoods.getD b 0
        + ∑ c ∈ s.messages.colSupports.getD b ∅, s.messages.checks c b < 0)⟩

/-- The stopping condition of `BpDecoder::correction_for`: the decoded
correction reproduces the target syndrome, or the iteration counter
has reached the decoder's cap. -/
def bpCond (dec : BpDecoder) (syndrome : BinVec) (s : BpState) : Prop :=
  dec.parityMat.mulVec s.decode.support = syndrome
    ∨ s.numIterations = dec.numIterations

open Classical in

/-- The `update_until` loop of `correction_for`, driven by fuel equal
to the iteration cap (the counter starts at zero and increases by one
per update, so the condition is reached within the fuel). -/
noncomputable def bpGo (dec : BpDecoder) (syndrome : BinVec) :
    ℕ → BpState → BpState
  | 0, s => s
  | fuel + 1, s =>
    if bpCond dec syndrome s then s else bpGo dec syndrome fuel s.updateOnce

/-- Mirrors `BpDecoder::correction_for`: run the loop from the
freshly initialized state and decode the final state. -/
noncomputable def BpDecoder.correctionFor (dec : BpDecoder) (syndrome : BinVec) :
    BinVec :=
  (bpGo dec syndrome dec.numIterations (dec.initializeFrom syndrome)).decode

/-- A concrete one-bit decision point with prior 0 and no adjacent
checks: its posterior log-likelihood ratio is exactly 0. -/
noncomputable def cexBpState : BpState :=
  ⟨⟨0, ∅⟩, [0], ⟨[∅], [], fun _ _ => 0, fun _ _ => 0⟩, 0⟩

/-- Mirrors `SparseBinMat::horizontal_concat_with` (for matrices with
equal row counts, the only use here): widths add and each row of the
second matrix is shifted by the width of the first. -/
def BinMat.hconcat (a b : BinMat) : BinMat :=
  ⟨a.cols + b.cols,
   List.zipWith (fun r s => r ∪ s.image (· + a.cols)) a.rows b.rows⟩

/-- All GF(2) subset sums of a list of row vectors. -/
def spanFinset (rows : List BVec) : Finset BVec :=
  rows.foldl (fun acc v => acc ∪ acc.image (· ∆ v)) {∅}

/-- Modelled from the spec: the `rank` primitive of the external
`sparse_bin_mat` library — the GF(2) row rank of a matrix, computed
here by greedy extraction of a basis of the row span. -/
def rankModel (m : BinMat) : ℕ :=
  (m.rows.foldl
    (fun basis v => if v ∈ spanFinset basis then basis else v :: basis) []).length

/-- Mirrors `CssErasureDecoder::error_basis`: one single-qubit error
row per erased position, in ascending position order. -/
def errorBasis (code : CssCode) (erasure : BinVec) : BinMat :=
  ⟨code.len,
   ((List.range erasure.len).filter (fun p => decide (p ∈ erasure.support))).map
     (fun p => ({p} : BVec))⟩

/-- Mirrors `CssErasureDecoder::num_bad_errors`: the rank of the
syndrome rows concatenated with the logical rows, minus the rank of
the syndrome rows alone. -/
def numBadErrors (errors stabs logicals : BinMat) : ℕ :=
  rankModel
    ((⟨stabs.cols, errors.rows.map (fun e => (stabs.mulVec e).support)⟩ : BinMat).hconcat
      ⟨logicals.cols, errors.rows.map (fun e => (logicals.mulVec e).support)⟩)
  - rankModel ⟨stabs.cols, errors.rows.map (fun e => (stabs.mulVec e).support)⟩

/-- Mirrors `CssErasureDecoder::num_bad_x_errors`: X errors are judged
against the Z stabilizers and Z logicals. -/
def numBadXErrors (code : CssCode) (errors : BinMat) : ℕ :=
  numBadErrors errors code.stabilizers.z code.logicals.z

/-- Mirrors `CssErasureDecoder::num_bad_z_errors`. -/
def numBadZErrors (code : CssCode) (errors : BinMat) : ℕ :=
  numBadErrors errors code.stabilizers.x code.logicals.x

/-- Mirrors `CssErasureDecoder::recovery_probability`, the dyadic
value `1 / 2^(bad X errors + bad Z errors)` (exact in `f64`, embedded
in `ℚ`). -/
def recoveryProbability (code : CssCode) (erasure : BinVec) : ℚ :=
  1 / 2 ^ (numBadXErrors code (errorBasis code erasure)
      + numBadZErrors code (errorBasis code erasure))

/-- Mirrors `convert_graph_into_code`: the sampled regular bipartite
graph (external sampler) is summarized by its check adjacency matrix,
from which the code is built through `from_parity_check_matrix`. -/
def convertGraphIntoCode (parityCheckMatrix : BinMat) : LinearCode :=
  LinearCode.fromParityCheckMatrix parityCheckMatrix

theorem dotF_comm (a b : BVec) : dotF a b = dotF b a := by
  rw [dotF, dotF, Finset.inter_comm]

theorem card_symmDiff_cast (a b : BVec) :
    (((a ∆ b).card : ℕ) : ZMod 2) = (a.card : ZMod 2) + (b.card : ZMod 2) := by
  have hd : Disjoint (a \ b) (b \ a) := disjoint_sdiff_sdiff
  have hcard : (a ∆ b).card = (a \ b).card + (b \ a).card := by
    rw [symmDiff_def]
    exact Finset.card_union_of_disjoint hd
  have ha : (a \ b).card + (a ∩ b).card = a.card := Finset.card_sdiff_add_card_inter a b
  have hb : (b \ a).card + (b ∩ a).card = b.card := Finset.card_sdiff_add_card_inter b a
  have hinter : (b ∩ a).card = (a ∩ b).card := by rw [Finset.inter_comm]
  have key : (a ∆ b).card + 2 * (a ∩ b).card = a.card + b.card := by omega
  have := congrArg (fun n : ℕ => (n : ZMod 2)) key
  push_cast at this
  have h2 : (2 : ZMod 2) = 0 := by decide
  rw [h2] at this
  simpa using this

/-- The GF(2) dot product is additive in the left argument with respect
to symmetric difference (vector addition). -/
theorem dotF_symmDiff_left (a b c : BVec) :
    dotF (a ∆ b) c = dotF a c + dotF b c := by
  have hdist : (a ∆ b) ∩ c = (a ∩ c) ∆ (b ∩ c) := inf_symmDiff_distrib_right a b c
  rw [dotF, hdist, card_symmDiff_cast, dotF, dotF]

theorem dotF_symmDiff_right (a b c : BVec) :
    dotF a (b ∆ c) = dotF a b + dotF a c := by
  rw [dotF_comm, dotF_symmDiff_left, dotF_comm b a, dotF_comm c a]

theorem zmod2_eq_zero_of_ne_one : ∀ x : ZMod 2, x ≠ 1 → x = 0 := by decide

theorem mulTransposedIsZero_iff (a b : BinMat) :
    a.mulTransposedIsZero b = true ↔ ∀ r ∈ a.rows, ∀ s ∈ b.rows, dotF r s = 0 := by
  simp [BinMat.mulTransposedIsZero, List.all_eq_true]

theorem antic_true_iff (x z : BVec) : antic x z = true ↔ dotF x z = 1 := by
  simp [antic]

theorem dotF_eq_zero_of_antic_false {x z : BVec} (h : antic x z = false) :
    dotF x z = 0 := by
  apply zmod2_eq_zero_of_ne_one
  intro hone
  simp [antic, hone] at h

theorem findAntiPos_spec {x : BVec} :
    ∀ {l : List BVec} {i : ℕ}, findAntiPos x l = some i →
      ∃ hi : i < l.length, dotF x (l.get ⟨i, hi⟩) = 1
  | [], i, h => by simp [findAntiPos] at h
  | z :: zs, i, h => by
    by_cases hz : antic x z = true
    · rw [findAntiPos, if_pos hz] at h
      cases h
      exact ⟨Nat.succ_pos _, (antic_true_iff x z).mp hz⟩
    · rw [findAntiPos, if_neg hz] at h
      rcases Option.map_eq_some'.mp h with ⟨j, hj, rfl⟩
      rcases findAntiPos_spec hj with ⟨hjlt, hdot⟩
      exact ⟨Nat.succ_lt_succ hjlt, hdot⟩

theorem mem_of_mem_dropLast {a : BVec} {l : List BVec} (h : a ∈ l.dropLast) :
    a ∈ l :=
  l.dropLast_sublist.mem h

theorem mem_of_swapRemove {a : BVec} {l : List BVec} {i : ℕ}
    (h : a ∈ swapRemove l i) : a ∈ l := by
  rw [swapRemove] at h
  cases hlast : l.getLast? with
  | none => rw [hlast] at h; exact mem_of_mem_dropLast h
  | some b =>
    rw [hlast] at h
    have hb : b ∈ l := List.mem_of_mem_getLast? hlast
    rcases List.mem_or_eq_of_mem_set (mem_of_mem_dropLast h) with hmem | rfl
    · exact hmem
    · exact hb

theorem get_concat (l : List BVec) (a : BVec) (k : ℕ) (hk : k < (l ++ [a]).length) :
    (l ++ [a]).get ⟨k, hk⟩ = if h : k < l.length then l.get ⟨k, h⟩ else a := by
  by_cases h : k < l.length
  · rw [dif_pos h]
    exact List.getElem_append_left h
  · rw [dif_neg h]
    have hlen : k = l.length := by
      have := List.length_append l [a] ▸ hk
      simp at this
      omega
    subst hlen
    simp

theorem one_add_one_zmod2 : (1 : ZMod 2) + 1 = 0 := by decide

theorem pairStep_inv (P Q : BVec → Prop)
    (hP : ∀ a b, P a → P b → P (a ∆ b)) (hQ : ∀ a b, Q a → Q b → Q (a ∆ b))
    (s : LogState) (g h : BVec) (rx' rz' : List BVec)
    (hgmem : g ∈ s.rawXGenerators)
    (hhmem : h ∈ s.rawZGenerators)
    (hgh : dotF g h = 1)
    (hrx' : ∀ v ∈ rx', v ∈ s.rawXGenerators)
    (hrz' : ∀ v ∈ rz', v ∈ s.rawZGenerators)
    (hinv : PairInv P Q s) :
    PairInv P Q
      ⟨rx'.map (fun v => if antic v h then g ∆ v else v),
       rz'.map (fun v => if antic g v then h ∆ v else v),
       s.xLogicals ++ [g],
       s.zLogicals ++ [h]⟩ := by
  obtain ⟨hlen, hpair, hXZL, hZXL, hPX, hPXL, hQZ, hQZL⟩ := hinv
  refine ⟨by simp [hlen], ?_, ?_, ?_, ?_, ?_, ?_, ?_⟩
  · -- pairing with the identity structure
    intro i' j' hi' hj'
    rw [get_concat, get_concat]
    simp only [List.length_append, List.length_singleton] at hi' hj'
    by_cases hi2 : i' < s.xLogicals.length
    · by_cases hj2 : j' < s.zLogicals.length
      · rw [dif_pos hi2, dif_pos hj2]
        exact hpair i' j' hi2 hj2
      · rw [dif_pos hi2, dif_neg hj2]
        have hne : i' ≠ j' := by omega
        rw [if_neg hne]
        exact hZXL h hhmem _ (List.get_mem _ _ _)
    · by_cases hj2 : j' < s.zLogicals.length
      · rw [dif_neg hi2, dif_pos hj2]
        have hne : i' ≠ j' := by omega
        rw [if_neg hne]
        exact hXZL g hgmem _ (List.get_mem _ _ _)
      · rw [dif_neg hi2, dif_neg hj2]
        have heq : i' = j' := by omega
        rw [if_pos heq]
        exact hgh
  · -- new raw X pool commutes with all emitted Z logicals
    intro x' hx' z hz
    rcases List.mem_map.mp hx' with ⟨x, hxmem, rfl⟩
    have hxold : x ∈ s.rawXGenerators := hrx' x hxmem
    rcases List.mem_append.mp hz with hzold | hznew
    · by_cases hc : antic x h = true
      · rw [if_pos hc, dotF_symmDiff_left]
        rw [hXZL g hgmem z hzold, hXZL x hxold z hzold, add_zero]
      · rw [if_neg hc]
        exact hXZL x hxold z hzold
    · have hzh : z = h := by simpa using hznew
      rw [hzh]
      by_cases hc : antic x h = true
      · rw [if_pos hc, dotF_symmDiff_left, hgh, (antic_true_iff x h).mp hc,
          one_add_one_zmod2]
      · rw [if_neg hc]
        exact dotF_eq_zero_of_antic_false (by simpa using hc)
  · -- new raw Z pool commutes with all emitted X logicals
    intro z' hz' x hx
    rcases List.mem_map.mp hz' with ⟨z, hzmem, rfl⟩
    have hzold : z ∈ s.rawZGenerators := hrz' z hzmem
    rcases List.mem_append.mp hx with hxold | hxnew
    · by_cases hc : antic g z = true
      · rw [if_pos hc, dotF_symmDiff_right]
        rw [hZXL h hhmem x hxold, hZXL z hzold x hxold, add_zero]
      · rw [if_neg hc]
        exact hZXL z hzold x hxold
    · have hxg : x = g := by simpa using hxnew
      rw [hxg]
      by_cases hc : antic g z = true
      · rw [if_pos hc, dotF_symmDiff_right, hgh, (antic_true_iff g z).mp hc,
          one_add_one_zmod2]
      · rw [if_neg hc]
        exact dotF_eq_zero_of_antic_false (by simpa using hc)
  · -- P holds on the new raw X pool
    intro x' hx'
    rcases List.mem_map.mp hx' with ⟨x, hxmem, rfl⟩
    have hxold : x ∈ s.rawXGenerators := hrx' x hxmem
    by_cases hc : antic x h = true
    · rw [if_pos hc]
      exact hP _ _ (hPX g hgmem) (hPX x hxold)
    · rw [if_neg hc]
      exact hPX x hxold
  · -- P holds on the emitted X logicals
    intro x hx
    rcases List.mem_append.mp hx with hxold | hxnew
    · exact hPXL x hxold
    · have hxg : x = g := by simpa using hxnew
      rw [hxg]
      exact hPX g hgmem
  · -- Q holds on the new raw Z pool
    intro z' hz'
    rcases List.mem_map.mp hz' with ⟨z, hzmem, rfl⟩
    have hzold : z ∈ s.rawZGenerators := hrz' z hzmem
    by_cases hc : antic g z = true
    · rw [if_pos hc]
      exact hQ _ _ (hQZ h hhmem) (hQZ z hzold)
    · rw [if_neg hc]
      exact hQZ z hzold
  · -- Q holds on the emitted Z logicals
    intro z hz
    rcases List.mem_append.mp hz with hzold | hznew
    · exact hQZL z hzold
    · have hzh : z = h := by simpa using hznew
      rw [hzh]
      exact hQZ h hhmem

theorem computeGo_inv (P Q : BVec → Prop)
    (hP : ∀ a b, P a → P b → P (a ∆ b)) (hQ : ∀ a b, Q a → Q b → Q (a ∆ b)) :
    ∀ fuel (s : LogState), PairInv P Q s → PairInv P Q (computeGo fuel s)
  | 0, s, hinv => hinv
  | fuel + 1, s, hinv => by
    rw [computeGo]
    split
    · exact hinv
    · rename_i g hlast
      split
      · rename_i hfind
        apply computeGo_inv P Q hP hQ fuel
        obtain ⟨hlen, hpair, hXZL, hZXL, hPX, hPXL, hQZ, hQZL⟩ := hinv
        exact ⟨hlen, hpair,
          fun x hx => hXZL x (mem_of_mem_dropLast hx),
          hZXL,
          fun x hx => hPX x (mem_of_mem_dropLast hx),
          hPXL, hQZ, hQZL⟩
      · rename_i i hfind
        apply computeGo_inv P Q hP hQ fuel
        obtain ⟨hilt, hdot⟩ := findAntiPos_spec hfind
        have hget : s.rawZGenerators.getD i ∅ = s.rawZGenerators.get ⟨i, hilt⟩ := by
          rw [List.getD_eq_getElem _ _ hilt]
          rfl
        apply pairStep_inv P Q hP hQ s g (s.rawZGenerators.getD i ∅)
        · exact List.mem_of_mem_getLast? hlast
        · rw [hget]
          exact List.get_mem _ _ _
        · rw [hget]
          exact hdot
        · exact fun v hv => mem_of_mem_dropLast hv
        · exact fun v hv => mem_of_swapRemove hv
        · exact hinv

theorem computeLogicals_inv (P Q : BVec → Prop)
    (hP : ∀ a b, P a → P b → P (a ∆ b)) (hQ : ∀ a b, Q a → Q b → Q (a ∆ b))
    (s : LogState) (hinv : PairInv P Q s) :
    PairInv P Q (computeLogicals s) :=
  computeGo_inv P Q hP hQ _ s hinv

theorem commutesWithRows_symmDiff (m : BinMat) (a b : BVec)
    (ha : CommutesWithRows m a) (hb : CommutesWithRows m b) :
    CommutesWithRows m (a ∆ b) := by
  intro r hr
  rw [dotF_symmDiff_left, ha r hr, hb r hr, add_zero]

theorem fromLinearCodes_x_rows (xCode zCode : LinearCode) :
    (fromLinearCodes xCode zCode).x.rows =
      (computeLogicals
        ⟨zCode.generatorMatrix.rows, xCode.generatorMatrix.rows, [], []⟩).xLogicals := rfl

theorem fromLinearCodes_z_rows (xCode zCode : LinearCode) :
    (fromLinearCodes xCode zCode).z.rows =
      (computeLogicals
        ⟨zCode.generatorMatrix.rows, xCode.generatorMatrix.rows, [], []⟩).zLogicals := rfl

/-- C1 (amended): for every pair of linear codes of equal length with
orthogonal parity-check matrices (each satisfying the `H·Gᵗ = 0`
invariant), the symplectic pairing `from_linear_codes` emits two
logical matrices with the same number of rows whose product
`X_logicals · Z_logicalsᵗ` is the GF(2) identity matrix, every X
logical row having zero GF(2) product with the Z stabilizer matrix and
every Z logical row having zero GF(2) product with the X stabilizer
matrix. -/
theorem css_logicals_pairing (xCode zCode : LinearCode)
    (_hlen : xCode.len = zCode.len)
    (_horth : xCode.parityCheckMatrix.mulTransposedIsZero zCode.parityCheckMatrix = true)
    (hx : xCode.dualityInvariant) (hz : zCode.dualityInvariant) :
    (fromLinearCodes xCode zCode).x.rows.length
        = (fromLinearCodes xCode zCode).z.rows.length ∧
    (∀ i j (hi : i < (fromLinearCodes xCode zCode).x.rows.length)
        (hj : j < (fromLinearCodes xCode zCode).z.rows.length),
        dotF ((fromLinearCodes xCode zCode).x.rows.get ⟨i, hi⟩)
             ((fromLinearCodes xCode zCode).z.rows.get ⟨j, hj⟩)
          = if i = j then 1 else 0) ∧
    (∀ v ∈ (fromLinearCodes xCode zCode).x.rows,
        ∀ r ∈ zCode.parityCheckMatrix.rows, dotF v r = 0) ∧
    (∀ v ∈ (fromLinearCodes xCode zCode).z.rows,
        ∀ r ∈ xCode.parityCheckMatrix.rows, dotF v r = 0) := by
  have hinv0 : PairInv (CommutesWithRows zCode.parityCheckMatrix)
      (CommutesWithRows xCode.parityCheckMatrix)
      ⟨zCode.generatorMatrix.rows, xCode.generatorMatrix.rows, [], []⟩ := by
    refine ⟨rfl, ?_, ?_, ?_, ?_, ?_, ?_, ?_⟩
    · intro i j hi hj
      simp at hi
    · intro x hx z hz
      simp at hz
    · intro z hz x hx
      simp at hx
    · intro v hv r hr
      rw [dotF_comm]
      exact hz r hr v hv
    · intro v hv
      simp at hv
    · intro v hv r hr
      rw [dotF_comm]
      exact hx r hr v hv
    · intro v hv
      simp at hv
  have hres := computeLogicals_inv _ _
    (commutesWithRows_symmDiff zCode.parityCheckMatrix)
    (commutesWithRows_symmDiff xCode.parityCheckMatrix)
    _ hinv0
  obtain ⟨hlen', hpair, _, _, _, hPXL, _, hQZL⟩ := hres
  rw [fromLinearCodes_x_rows, fromLinearCodes_z_rows]
  exact ⟨hlen', hpair, hPXL, hQZL⟩

/-- C1 (counterexample): on the concrete orthogonal pair `cexXCode`,
`cexZCode` (equal lengths, orthogonal parity-check matrices, both
duality invariants holding), the emitted X logical `{1}` has GF(2)
product `1` with the row `{0,1}` of the X stabilizer matrix, so an
X-logical row does not have zero product with *both* stabilizer
matrices as the claim states. -/
theorem css_logicals_pairing_cex :
    cexXCode.len = cexZCode.len
    ∧ cexXCode.parityCheckMatrix.mulTransposedIsZero cexZCode.parityCheckMatrix = true
    ∧ cexXCode.dualityInvariant ∧ cexZCode.dualityInvariant
    ∧ (fromLinearCodes cexXCode cexZCode).x.rows = [{1}]
    ∧ cexXCode.parityCheckMatrix.rows = [{0, 1}]
    ∧ dotF {1} {0, 1} = 1
    ∧ ¬ (∀ v ∈ (fromLinearCodes cexXCode cexZCode).x.rows,
          ∀ r ∈ cexXCode.parityCheckMatrix.rows, dotF v r = 0) := by
  decide

/-- C1 (witness): the amended pairing theorem applied to the concrete
pair `cexXCode`, `cexZCode`. -/
theorem css_logicals_pairing_witness :
    cexXCode.len = cexZCode.len
    ∧ cexXCode.parityCheckMatrix.mulTransposedIsZero cexZCode.parityCheckMatrix = true
    ∧ cexXCode.dualityInvariant ∧ cexZCode.dualityInvariant
    ∧ ((fromLinearCodes cexXCode cexZCode).x.rows.length
          = (fromLinearCodes cexXCode cexZCode).z.rows.length ∧
       (∀ i j (hi : i < (fromLinearCodes cexXCode cexZCode).x.rows.length)
          (hj : j < (fromLinearCodes cexXCode cexZCode).z.rows.length),
          dotF ((fromLinearCodes cexXCode cexZCode).x.rows.get ⟨i, hi⟩)
               ((fromLinearCodes cexXCode cexZCode).z.rows.get ⟨j, hj⟩)
            = if i = j then 1 else 0) ∧
       (∀ v ∈ (fromLinearCodes cexXCode cexZCode).x.rows,
          ∀ r ∈ cexZCode.parityCheckMatrix.rows, dotF v r = 0) ∧
       (∀ v ∈ (fromLinearCodes cexXCode cexZCode).z.rows,
          ∀ r ∈ cexXCode.parityCheckMatrix.rows, dotF v r = 0)) :=
  ⟨by decide, by decide, by decide, by decide,
   css_logicals_pairing cexXCode cexZCode (by decide) (by decide)
     (by decide) (by decide)⟩

/-- C4: `CssCode::try_new` returns the structured error
`DifferentXandZLength` exactly when the two code lengths differ,
returns `NonOrthogonalCodes` exactly when the lengths match but
`H_x · H_zᵗ` is non-zero, and otherwise returns `Ok` with the
stabilizers taken from the parity-check matrices; both checks precede
the logical-operator computation and no panic occurs. -/
theorem css_tryNew_spec (xCode zCode : LinearCode) :
    (CssCode.tryNew xCode zCode
        = .error (.DifferentXandZLength xCode.len zCode.len)
      ↔ xCode.len ≠ zCode.len) ∧
    (CssCode.tryNew xCode zCode = .error .NonOrthogonalCodes
      ↔ xCode.len = zCode.len
        ∧ ¬ (xCode.parityCheckMatrix.mulTransposedIsZero zCode.parityCheckMatrix
              = true)) ∧
    (CssCode.tryNew xCode zCode
        = .ok ⟨⟨xCode.parityCheckMatrix, zCode.parityCheckMatrix⟩,
               fromLinearCodes xCode zCode⟩
      ↔ xCode.len = zCode.len
        ∧ xCode.parityCheckMatrix.mulTransposedIsZero zCode.parityCheckMatrix
            = true) := by
  unfold CssCode.tryNew
  by_cases h1 : xCode.len = zCode.len
  · rw [if_neg (by simp [h1])]
    by_cases h2 : xCode.parityCheckMatrix.mulTransposedIsZero zCode.parityCheckMatrix
        = true
    · rw [if_neg (by simp [h2])]
      refine ⟨?_, ?_, ?_⟩ <;> simp [h1, h2]
    · rw [if_pos (by simp [h2])]
      refine ⟨?_, ?_, ?_⟩ <;> simp [h1, h2]
  · rw [if_pos (by simp [h1])]
    refine ⟨?_, ?_, ?_⟩ <;> simp [h1]

/-- C10: `num_x_logicals` reads the row count of the Z logical matrix,
so it always agrees with `num_z_logicals`; on a `CssCode` value whose
public `logicals` field holds two X rows but one Z row it reports 1,
not the X row count 2. -/
theorem css_numXLogicals_reads_z (c : CssCode) :
    c.numXLogicals = c.logicals.z.rows.length
    ∧ c.numXLogicals = c.numZLogicals
    ∧ CssCode.numXLogicals
        ⟨⟨⟨0, []⟩, ⟨0, []⟩⟩, ⟨⟨0, [∅, ∅]⟩, ⟨0, [∅]⟩⟩⟩ = 1
    ∧ (⟨⟨⟨0, []⟩, ⟨0, []⟩⟩, ⟨⟨0, [∅, ∅]⟩, ⟨0, [∅]⟩⟩⟩
        : CssCode).logicals.x.rows.length = 2 :=
  ⟨rfl, rfl, rfl, rfl⟩

/-- C8: the composite CSS decoder cross-feeds: the x part of the
returned correction is the correction the z-side classical decoder
computes from the Z-stabilizer syndrome, the z part is the correction
the x-side classical decoder computes from the X-stabilizer syndrome,
i.e. each decoder is applied to exactly one axis and the two results
are swapped back into (x, z) form. -/
theorem css_decoder_cross_feeds {Syn Cor : Type _}
    (d : Css (Syn → Cor) (Syn → Cor)) (s : Css Syn Syn) :
    (cssCorrectionFor d s).x = d.z s.z
    ∧ (cssCorrectionFor d s).z = d.x s.x
    ∧ cssCorrectionFor d s = Css.swapXZ ⟨d.x s.x, d.z s.z⟩ :=
  ⟨rfl, rfl, rfl⟩

theorem flipGo_mono (code : LinearCode) :
    ∀ (fuel : ℕ) (syndrome output r : BinVec),
      flipGo code fuel syndrome output = some r →
      flipGo code (fuel + 1) syndrome output = some r
  | 0, _, _, _, h => by simp [flipGo] at h
  | fuel + 1, syndrome, output, r, h => by
    rw [flipGo] at h
    rw [flipGo]
    cases hf : findFlippable code syndrome with
    | none => rw [hf] at h; exact h
    | some bit =>
      rw [hf] at h
      exact flipGo_mono code fuel _ _ r h

/-- C6: the flip decoder flips the first bit (in adjacency-row order)
with a strict majority of unsatisfied checks, updating the syndrome
incrementally, until no such bit exists; on the Hamming code, decoding
the word with support `{4, 6}` terminates and returns the word with
support `{1, 4, 6}` for every sufficient fuel bound (two loop
iterations suffice). -/
theorem flip_hamming_two_bit_error (fuel : ℕ) (hf : 2 ≤ fuel) :
    flipDecode LinearCode.hammingCode fuel ⟨7, {4, 6}⟩ = some ⟨7, {1, 4, 6}⟩ := by
  obtain ⟨k, rfl⟩ : ∃ k, fuel = 2 + k := ⟨fuel - 2, by omega⟩
  induction k with
  | zero => decide
  | succ k ih =>
    have heq : 2 + (k + 1) = (2 + k) + 1 := by omega
    rw [heq, flipDecode] at *
    exact flipGo_mono _ _ _ _ _ (ih (by omega))

/-- C6 (witness): the Hamming two-bit-error decoding at the minimal
fuel bound. -/
theorem flip_hamming_two_bit_error_witness :
    2 ≤ 2 ∧ flipDecode LinearCode.hammingCode 2 ⟨7, {4, 6}⟩ = some ⟨7, {1, 4, 6}⟩ :=
  ⟨Nat.le_refl 2, flip_hamming_two_bit_error 2 (Nat.le_refl 2)⟩

theorem updateOnce_numIterations (s : BpState) :
    s.updateOnce.numIterations = s.numIterations + 1 := rfl

theorem bpGo_spec (dec : BpDecoder) (syndrome : BinVec) :
    ∀ (fuel : ℕ) (s : BpState), s.numIterations + fuel = dec.numIterations →
      ∃ k, k ≤ fuel ∧
        bpGo dec syndrome fuel s = BpState.updateOnce^[k] s ∧
        bpCond dec syndrome (BpState.updateOnce^[k] s) ∧
        ∀ j < k, ¬ bpCond dec syndrome (BpState.updateOnce^[j] s)
  | 0, s, h => by
    refine ⟨0, Nat.le_refl 0, rfl, ?_, by omega⟩
    simpa using Or.inr (by simpa using h)
  | fuel + 1, s, h => by
    by_cases hc : bpCond dec syndrome s
    · refine ⟨0, Nat.zero_le _, ?_, by simpa using hc, by omega⟩
      rw [bpGo, if_pos hc]
      simp
    · rw [bpGo, if_neg hc]
      have h' : s.updateOnce.numIterations + fuel = dec.numIterations := by
        rw [updateOnce_numIterations]
        omega
      obtain ⟨k, hk, heq, hcond, hmin⟩ := bpGo_spec dec syndrome fuel s.updateOnce h'
      refine ⟨k + 1, by omega, ?_, ?_, ?_⟩
      · rw [heq, Function.iterate_succ_apply]
      · rw [Function.iterate_succ_apply]
        exact hcond
      · intro j hj
        cases j with
        | zero => simpa using hc
        | succ j' =>
          rw [Function.iterate_succ_apply]
          exact hmin j' (by omega)

/-- C2: for every decoder configuration and syndrome,
`correction_for` stops at the first state whose decoded correction
reproduces the syndrome or whose iteration counter reaches the cap,
after at most `num_iterations` message updates, and the decoded
correction of that state is returned as a normal value. -/
theorem bp_correction_terminates (dec : BpDecoder) (syndrome : BinVec) :
    ∃ k, k ≤ dec.numIterations ∧
      dec.correctionFor syndrome
        = (BpState.updateOnce^[k] (dec.initializeFrom syndrome)).decode ∧
      bpCond dec syndrome
        (BpState.updateOnce^[k] (dec.initializeFrom syndrome)) ∧
      ∀ j < k, ¬ bpCond dec syndrome
        (BpState.updateOnce^[j] (dec.initializeFrom syndrome)) := by
  obtain ⟨k, hk, heq, hcond, hmin⟩ :=
    bpGo_spec dec syndrome dec.numIterations (dec.initializeFrom syndrome)
      (by simp [BpDecoder.initializeFrom])
  exact ⟨k, hk, by rw [BpDecoder.correctionFor, heq], hcond, hmin⟩

/-- C3 (amended): at any decision point, the correction contains bit
`b` iff `b` is in range and its posterior log-likelihood ratio — the
prior plus the sum of the incoming check-to-bit messages — is
*strictly* less than zero. -/
theorem bp_decode_strict (s : BpState) (b : ℕ) :
    b ∈ s.decode.support ↔
      b < s.likelyhoods.length ∧
        s.likelyhoods.getD b 0
          + ∑ c ∈ s.messages.colSupports.getD b ∅, s.messages.checks c b < 0 := by
  rw [BpState.decode]
  simp [Finset.mem_filter, Finset.mem_range]

/-- C3 (counterexample): at the concrete decision point `cexBpState`
the posterior of bit 0 is `≤ 0` (it is exactly 0), yet bit 0 is not in
the correction, refuting the claimed `≤ 0` decision rule: the code
uses a strict comparison. -/
theorem bp_decode_strict_cex :
    cexBpState.likelyhoods.getD 0 0
        + ∑ c ∈ cexBpState.messages.colSupports.getD 0 ∅,
            cexBpState.messages.checks c 0 ≤ 0
    ∧ 0 ∉ cexBpState.decode.support := by
  constructor
  · simp [cexBpState]
  · rw [BpState.decode]
    simp [cexBpState]

theorem findRowPos_none {p : BVec → Bool} :
    ∀ {l : List BVec}, (∀ r ∈ l, p r = false) → findRowPos p l = none
  | [], _ => rfl
  | r :: rs, h => by
    rw [findRowPos, if_neg (by simp [h r (List.mem_cons_self r rs)]),
      findRowPos_none (fun v hv => h v (List.mem_cons_of_mem r hv))]
    rfl

theorem findFlippable_of_empty (code : LinearCode) (s : BinVec)
    (hs : s.support = ∅) : findFlippable code s = none := by
  apply findRowPos_none
  intro r hr
  simp [hs]

theorem bp_prior_nonneg {p : ℝ} (hp0 : 0 ≤ p) (hp2 : p ≤ 1 / 2) :
    0 ≤ Real.log ((1 - p) / p) := by
  rcases eq_or_lt_of_le hp0 with heq | hpos
  · rw [← heq]
    simp
  · apply Real.log_nonneg
    rw [le_div_iff₀ hpos]
    linarith

theorem bp_decode_initial (dec : BpDecoder) (syndrome : BinVec)
    (hl : ∀ x ∈ dec.likelyhoods, 0 ≤ x) :
    (dec.initializeFrom syndrome).decode = ⟨dec.likelyhoods.length, ∅⟩ := by
  have hlik : (dec.initializeFrom syndrome).likelyhoods = dec.likelyhoods := rfl
  rw [BpState.decode]
  refine congrArg (BinVec.mk dec.likelyhoods.length) ?_
  rw [Finset.filter_eq_empty_iff]
  intro b hb
  have hsum : (∑ c ∈ (dec.initializeFrom syndrome).messages.colSupports.getD b ∅,
      (dec.initializeFrom syndrome).messages.checks c b) = 0 := by
    simp [BpDecoder.initializeFrom]
  rw [hsum, add_zero, hlik, not_lt]
  by_cases hlen : b < dec.likelyhoods.length
  · rw [List.getD_eq_getElem _ _ hlen]
    exact hl _ (List.getElem_mem hlen)
  · rw [List.getD_eq_default _ _ (by omega)]

theorem mulVec_of_empty (m : BinMat) : m.mulVec ∅ = ⟨m.rows.length, ∅⟩ := by
  rw [BinMat.mulVec]
  refine congrArg (BinVec.mk m.rows.length) ?_
  rw [Finset.filter_eq_empty_iff]
  intro c hc
  simp [dotF]

theorem bpGo_of_cond (dec : BpDecoder) (syndrome : BinVec) (fuel : ℕ)
    (s : BpState) (hc : bpCond dec syndrome s) :
    bpGo dec syndrome fuel s = s := by
  cases fuel with
  | zero => rfl
  | succ fuel => rw [bpGo, if_pos hc]

/-- C9 (amended): decoding an input with zero syndrome yields a zero
correction: the flip decoder returns any zero-syndrome word unchanged
(no bit ever has a strict majority of unsatisfied checks), and
`BpDecoder::correction_for` on the all-zero syndrome returns the zero
vector provided the crossover probability is at most 1/2 (so that the
prior log-likelihood ratio is non-negative). -/
theorem zero_syndrome_zero_correction :
    (∀ (code : LinearCode) (msg : BinVec) (fuel : ℕ), 1 ≤ fuel →
        (code.syndromeOf msg.support).support = ∅ →
        flipDecode code fuel msg = some msg)
    ∧ (∀ (H : BinMat) (p : ℝ) (N : ℕ), 0 ≤ p → p ≤ 1 / 2 →
        (BpDecoder.new H p N).correctionFor ⟨H.rows.length, ∅⟩
          = ⟨H.cols, ∅⟩) := by
  constructor
  · intro code msg fuel hf hzero
    obtain ⟨k, rfl⟩ : ∃ k, fuel = k + 1 := ⟨fuel - 1, by omega⟩
    rw [flipDecode, flipGo, findFlippable_of_empty code _ hzero]
  · intro H p N hp0 hp2
    have hlike : ∀ x ∈ (BpDecoder.new H p N).likelyhoods, 0 ≤ x := by
      intro x hx
      rw [List.eq_of_mem_replicate hx]
      exact bp_prior_nonneg hp0 hp2
    have hdec : ((BpDecoder.new H p N).initializeFrom ⟨H.rows.length, ∅⟩).decode
        = ⟨H.cols, ∅⟩ := by
      rw [bp_decode_initial _ _ hlike]
      simp [BpDecoder.new]
    have hcond : bpCond (BpDecoder.new H p N) ⟨H.rows.length, ∅⟩
        ((BpDecoder.new H p N).initializeFrom ⟨H.rows.length, ∅⟩) := by
      left
      rw [hdec]
      exact mulVec_of_empty H
    rw [BpDecoder.correctionFor, bpGo_of_cond _ _ _ _ hcond, hdec]

/-- C9 (witness): the flip half at the Hamming code on the zero word
with one unit of fuel, and the belief-propagation half at crossover
probability 1/4 on a one-check two-bit matrix. -/
theorem zero_syndrome_zero_correction_witness :
    ((LinearCode.hammingCode.syndromeOf (∅ : BVec)).support = ∅
      ∧ flipDecode LinearCode.hammingCode 1 ⟨7, ∅⟩ = some ⟨7, ∅⟩)
    ∧ (0 ≤ (1 / 4 : ℝ) ∧ (1 / 4 : ℝ) ≤ 1 / 2
      ∧ (BpDecoder.new ⟨2, [{0, 1}]⟩ (1 / 4) 5).correctionFor ⟨1, ∅⟩
          = ⟨2, ∅⟩) :=
  ⟨⟨by decide,
    zero_syndrome_zero_correction.1 LinearCode.hammingCode ⟨7, ∅⟩ 1
      (Nat.le_refl 1) (by decide)⟩,
   ⟨by norm_num, by norm_num,
    zero_syndrome_zero_correction.2 ⟨2, [{0, 1}]⟩ (1 / 4) 5
      (by norm_num) (by norm_num)⟩⟩

/-- C9 (counterexample): with crossover probability 3/4 (a valid
probability, prior log-likelihood ratio `ln(1/3) < 0`) on the
single-check matrix `[{0,1}]`, `correction_for` applied to the
all-zero syndrome returns the all-ones vector `{0,1}` — its syndrome
is zero, so the loop accepts it at iteration 0 — not the zero
vector. -/
theorem zero_syndrome_zero_correction_cex :
    (0 : ℝ) ≤ 3 / 4 ∧ (3 / 4 : ℝ) ≤ 1
    ∧ (BpDecoder.new ⟨2, [{0, 1}]⟩ (3 / 4) 10).correctionFor ⟨1, ∅⟩
        = ⟨2, {0, 1}⟩
    ∧ (⟨2, {0, 1}⟩ : BinVec) ≠ ⟨2, ∅⟩ := by
  have hprior : Real.log ((1 - (3 : ℝ) / 4) / ((3 : ℝ) / 4)) < 0 := by
    have h13 : (1 - (3 : ℝ) / 4) / ((3 : ℝ) / 4) = 1 / 3 := by norm_num
    rw [h13]
    exact Real.log_neg (by norm_num) (by norm_num)
  have hdecode :
      ((BpDecoder.new ⟨2, [{0, 1}]⟩ (3 / 4) 10).initializeFrom ⟨1, ∅⟩).decode
        = ⟨2, {0, 1}⟩ := by
    rw [BpState.decode]
    have hlik : ((BpDecoder.new ⟨2, [{0, 1}]⟩ (3 / 4) 10).initializeFrom
        ⟨1, ∅⟩).likelyhoods
        = List.replicate 2 (Real.log ((1 - (3 : ℝ) / 4) / ((3 : ℝ) / 4))) := rfl
    rw [hlik, List.length_replicate]
    refine congrArg (BinVec.mk 2) ?_
    rw [Finset.filter_true_of_mem, show Finset.range 2 = {0, 1} from by decide]
    intro b hb
    have hsum : (∑ c ∈ ((BpDecoder.new ⟨2, [{0, 1}]⟩ (3 / 4) 10).initializeFrom
        ⟨1, ∅⟩).messages.colSupports.getD b ∅,
        ((BpDecoder.new ⟨2, [{0, 1}]⟩ (3 / 4) 10).initializeFrom
          ⟨1, ∅⟩).messages.checks c b) = 0 := by
      simp [BpDecoder.initializeFrom]
    rw [hsum, add_zero]
    have hb2 : b < 2 := Finset.mem_range.mp hb
    interval_cases b <;> simpa using hprior
  have hcond : bpCond (BpDecoder.new ⟨2, [{0, 1}]⟩ (3 / 4) 10) ⟨1, ∅⟩
      ((BpDecoder.new ⟨2, [{0, 1}]⟩ (3 / 4) 10).initializeFrom ⟨1, ∅⟩) := by
    left
    rw [hdecode]
    show (⟨2, [{0, 1}]⟩ : BinMat).mulVec {0, 1} = ⟨1, ∅⟩
    decide
  refine ⟨by norm_num, by norm_num, ?_, by decide⟩
  rw [BpDecoder.correctionFor, bpGo_of_cond _ _ _ _ hcond, hdecode]

/-- C5: `recovery_probability` is exactly `2^-(dx+dz)` where each
axis deficit is the rank of the per-erased-qubit syndrome rows
concatenated with the logical rows minus the rank of the syndrome-only
rows; on the Shor code the erasure `{0,4,8}` has recovery probability
exactly 1/2 with exactly one bad Z-type error (and no bad X-type
error), and the erasure `{0,1,3,4}` has recovery probability exactly
1. -/
theorem css_erasure_recovery :
    (∀ (code : CssCode) (erasure : BinVec),
        recoveryProbability code erasure
          = 1 / 2 ^ (numBadXErrors code (errorBasis code erasure)
              + numBadZErrors code (errorBasis code erasure)))
    ∧ (∀ (errors stabs logicals : BinMat),
        numBadErrors errors stabs logicals
          = rankModel
              ((⟨stabs.cols,
                  errors.rows.map (fun e => (stabs.mulVec e).support)⟩
                : BinMat).hconcat
                ⟨logicals.cols,
                  errors.rows.map (fun e => (logicals.mulVec e).support)⟩)
            - rankModel ⟨stabs.cols,
                errors.rows.map (fun e => (stabs.mulVec e).support)⟩)
    ∧ recoveryProbability CssCode.shorCode ⟨9, {0, 4, 8}⟩ = 1 / 2
    ∧ numBadZErrors CssCode.shorCode
        (errorBasis CssCode.shorCode ⟨9, {0, 4, 8}⟩) = 1
    ∧ numBadXErrors CssCode.shorCode
        (errorBasis CssCode.shorCode ⟨9, {0, 4, 8}⟩) = 0
    ∧ recoveryProbability CssCode.shorCode ⟨9, {0, 1, 3, 4}⟩ = 1 := by
  have hz1 : numBadZErrors CssCode.shorCode
      (errorBasis CssCode.shorCode ⟨9, {0, 4, 8}⟩) = 1 := by decide
  have hx1 : numBadXErrors CssCode.shorCode
      (errorBasis CssCode.shorCode ⟨9, {0, 4, 8}⟩) = 0 := by decide
  have hz2 : numBadZErrors CssCode.shorCode
      (errorBasis CssCode.shorCode ⟨9, {0, 1, 3, 4}⟩) = 0 := by decide
  have hx2 : numBadXErrors CssCode.shorCode
      (errorBasis CssCode.shorCode ⟨9, {0, 1, 3, 4}⟩) = 0 := by decide
  refine ⟨fun _ _ => rfl, fun _ _ _ => rfl, ?_, hz1, hx1, ?_⟩
  · rw [recoveryProbability, hx1, hz1]
    norm_num
  · rw [recoveryProbability, hx2, hz2]
    norm_num

theorem nullspace_rows_orthogonal {m : BinMat} {v : BVec}
    (hv : v ∈ (nullspaceModel m).rows) : ∀ r ∈ m.rows, dotF r v = 0 := by
  rw [nullspaceModel] at hv
  have hall := (List.mem_filter.mp hv).2
  intro r hr
  have := (List.all_eq_true.mp hall) r hr
  simpa using this

/-- C7: every `LinearCode` built by `from_parity_check_matrix`,
`from_generator_matrix`, a named constructor (repetition, Hamming,
empty), or regular-graph sampling (which feeds the sampled adjacency
matrix to `from_parity_check_matrix`) satisfies `H · Gᵗ = 0`; the code
value is immutable, so the invariant is permanent. -/
theorem linear_code_duality :
    (∀ m : BinMat, (LinearCode.fromParityCheckMatrix m).dualityInvariant)
    ∧ (∀ m : BinMat, (LinearCode.fromGeneratorMatrix m).dualityInvariant)
    ∧ (∀ n : ℕ, (LinearCode.repetitionCode n).dualityInvariant)
    ∧ LinearCode.hammingCode.dualityInvariant
    ∧ LinearCode.emptyCode.dualityInvariant
    ∧ (∀ m : BinMat, (convertGraphIntoCode m).dualityInvariant) := by
  have hpar : ∀ m : BinMat, (LinearCode.fromParityCheckMatrix m).dualityInvariant := by
    intro m r hr g hg
    exact nullspace_rows_orthogonal hg r hr
  have hgen : ∀ m : BinMat, (LinearCode.fromGeneratorMatrix m).dualityInvariant := by
    intro m r hr g hg
    rw [dotF_comm]
    exact nullspace_rows_orthogonal hr g hg
  exact ⟨hpar, hgen, fun n => hgen _, hpar _, hpar _, fun m => hpar m⟩

end Ldpc
